import Mathlib

/-!
Verification development for the boolean search-query parser
(`python_expression_fields_parser.py`): AST node types, the PLY lexer rules,
the yacc grammar with its precedence declarations, and `stringify`,
embedded as executable Lean definitions, with theorems about the spec's
claims.
-/

namespace SearchInputQuery

/-- AST node types: the `Expression = Union[Term, And, Or, Field]` tagged
union from the source, as one inductive. -/
inductive Expression where
  | Term (value : String)
  | And (left right : Expression)
  | Or (left right : Expression)
  | Field (key value : String)
deriving DecidableEq

/-- The `SearchQuery` NamedTuple: an optional root expression. -/
structure SearchQuery where
  expression : Option Expression
deriving DecidableEq

/-- Characters of `t_ignore = ' \t\n\r'`: whitespace discarded between
tokens. -/
def isIgnoreChar (c : Char) : Bool :=
  c = ' ' || c = '\t' || c = '\n' || c = '\r'

/-- Python's regex class `\s` on str patterns — the characters
`Py_UNICODE_ISSPACE` accepts: tab through carriage return (including
vertical tab and form feed), space, the information separators
U+001C–U+001F, NEL, NBSP, and the Unicode space characters. -/
def isPythonSpace (c : Char) : Bool :=
  (0x09 ≤ c.toNat && c.toNat ≤ 0x0d) || c.toNat == 0x20 ||
    (0x1c ≤ c.toNat && c.toNat ≤ 0x1f) || c.toNat == 0x85 ||
    c.toNat == 0xa0 || c.toNat == 0x1680 ||
    (0x2000 ≤ c.toNat && c.toNat ≤ 0x200a) || c.toNat == 0x2028 ||
    c.toNat == 0x2029 || c.toNat == 0x202f || c.toNat == 0x205f ||
    c.toNat == 0x3000

/-- Characters matched by `t_UNQUOTED_STRING`'s class `[^\s"():]`: anything
but Python `\s` whitespace, double quote, parentheses and colon.  Note
`\s` is wider than the `t_ignore` set: a `\s` character outside `t_ignore`
(form feed, NBSP, ...) is excluded from runs but also never skipped, so
the lexer errors on it. -/
def isUnquotedChar (c : Char) : Bool :=
  !(isPythonSpace c || c = '"' || c = '(' || c = ')' || c = ':')

/-- Python `str.replace(r'\"', '"')`: scan left to right, replace each
non-overlapping occurrence of backslash-quote by a quote, and continue
after the replacement. -/
def replaceEscapedQuote : List Char → List Char
  | [] => []
  | [c] => [c]
  | c :: d :: rest =>
      if c = '\\' && d = '"' then '"' :: replaceEscapedQuote rest
      else c :: replaceEscapedQuote (d :: rest)

/-- Python `str.replace(r'\\', '\\')`: scan left to right, replace each
non-overlapping occurrence of two backslashes by one, and continue after
the replacement. -/
def replaceEscapedBackslash : List Char → List Char
  | [] => []
  | [c] => [c]
  | c :: d :: rest =>
      if c = '\\' && d = '\\' then '\\' :: replaceEscapedBackslash rest
      else c :: replaceEscapedBackslash (d :: rest)

/-- Decoding in `t_QUOTED_STRING`: the matched text minus its delimiters is
run through `.replace(r'\"', '"').replace(r'\\', '\\')`, in that order. -/
def decodeQuoted (raw : List Char) : List Char :=
  replaceEscapedBackslash (replaceEscapedQuote raw)

/-- Token kinds from the source's `tokens` tuple. -/
inductive Token where
  | QUOTED_STRING (value : String)
  | UNQUOTED_STRING (value : String)
  | LPAREN
  | RPAREN
  | AND
  | OR
  | COLON
deriving DecidableEq

/-- Classification of a maximal unquoted run: `t_UNQUOTED_STRING` retypes a
run whose text is exactly `AND` or `OR` as that keyword token (this also
subsumes `t_AND`/`t_OR`, whose lookahead-guarded matches always coincide
with a maximal run equal to the keyword). -/
def classifyRun (s : List Char) : Token :=
  if s = "AND".data then .AND
  else if s = "OR".data then .OR
  else .UNQUOTED_STRING ⟨s⟩

/-- Scanner state: at a token boundary, inside an unquoted run, inside a
quoted string, or inside a quoted string right after a backslash. -/
inductive LexMode where
  | top
  | run (acc : List Char)
  | quote (acc : List Char)
  | quoteEsc (acc : List Char)

/-- The lexer: one pass over the characters, driven by the PLY master
regex's behaviour.  `t_QUOTED_STRING` is `"([^"\\]|\\.)*"` (note `.` does
not match a newline), `t_AND`/`t_OR` require a following `[\s()]` but fall
through to `t_UNQUOTED_STRING`'s reclassification otherwise, and
`t_UNQUOTED_STRING` takes a maximal `[^\s"():]+` run.  `none` models the
lexer raising `LexError`: a `"` that starts no complete quoted string, or
a character no rule matches — a `\s` character outside the `t_ignore` set
(form feed, NBSP, ...) — since `t_error` does not skip the offending
character.  (PLY produces tokens lazily, so the program may yield tokens
before the raise; the whole parse still fails, which is the granularity
modelled here.) -/
def lexChars : LexMode → List Char → Option (List Token)
  | .top, [] => some []
  | .run acc, [] => some [classifyRun acc]
  | .quote _, [] => none
  | .quoteEsc _, [] => none
  | .top, c :: cs =>
      if isIgnoreChar c then lexChars .top cs
      else if c = '"' then lexChars (.quote []) cs
      else if c = '(' then (lexChars .top cs).map (.LPAREN :: ·)
      else if c = ')' then (lexChars .top cs).map (.RPAREN :: ·)
      else if c = ':' then (lexChars .top cs).map (.COLON :: ·)
      else if isUnquotedChar c then lexChars (.run [c]) cs
      else none
  | .run acc, c :: cs =>
      if isUnquotedChar c then lexChars (.run (acc ++ [c])) cs
      else if isIgnoreChar c then (lexChars .top cs).map (classifyRun acc :: ·)
      else if c = '"' then (lexChars (.quote []) cs).map (classifyRun acc :: ·)
      else if c = '(' then
        (lexChars .top cs).map (fun ts => classifyRun acc :: .LPAREN :: ts)
      else if c = ')' then
        (lexChars .top cs).map (fun ts => classifyRun acc :: .RPAREN :: ts)
      else if c = ':' then
        (lexChars .top cs).map (fun ts => classifyRun acc :: .COLON :: ts)
      else none
  | .quote acc, c :: cs =>
      if c = '"' then (lexChars .top cs).map (.QUOTED_STRING ⟨decodeQuoted acc⟩ :: ·)
      else if c = '\\' then lexChars (.quoteEsc acc) cs
      else lexChars (.quote (acc ++ [c])) cs
  | .quoteEsc acc, c :: cs =>
      if c = '\n' then none
      else lexChars (.quote (acc ++ ['\\', c])) cs

/-- Tokenization of a query string; `none` is a lexical error. -/
def tokenize (query : String) : Option (List Token) :=
  lexChars .top query.data

/-- Python `str.lower()` on a field key (character-wise; exact on the ASCII
keys the grammar's tests exercise). -/
def pyLower (s : String) : String :=
  ⟨s.data.map Char.toLower⟩

/-- Parse-stack items for the shift-reduce parser generated by yacc:
a shifted `(`, a pending binary operator, a shifted `UNQUOTED_STRING` not
yet resolved to `term` or `field_name`, a `field_name COLON` pair waiting
for `field_content`, and a reduced expression. -/
inductive StackItem where
  | openParen
  | opAnd
  | opOr
  | uword (s : String)
  | pendingField (key : String)
  | done (e : Expression)
deriving DecidableEq

/-- Fold the run of adjacent reduced primaries atop the stack into implicit
`And`s (`p_primary`'s `primary primary` rule); the default shift resolution
of its conflicts makes the fold right-associative, so the topmost pair
reduces first. -/
def reduceJuxtA : Expression → List StackItem → Expression × List StackItem
  | top, .done a :: rest => reduceJuxtA (.And a top) rest
  | top, rest => (top, rest)

/-- Reduce pending explicit `AND`s below the top expression
(`('right', 'AND')` means equal-precedence `AND` shifts, and a lower
lookahead reduces them innermost-first). -/
def reduceAndA : Expression → List StackItem → Expression × List StackItem
  | top, .opAnd :: .done a :: rest => reduceAndA (.And a top) rest
  | top, rest => (top, rest)

/-- Reduce all pending `AND`/`OR` operators below the top expression, down
to an open parenthesis or the stack bottom (what happens on `)` or at end
of input). -/
def reduceOpsA : Expression → List StackItem → Expression × List StackItem
  | top, .opAnd :: .done a :: rest => reduceOpsA (.And a top) rest
  | top, .opOr :: .done a :: rest => reduceOpsA (.Or a top) rest
  | top, rest => (top, rest)

/-- Resolve a shifted `UNQUOTED_STRING` that the next token shows is not a
field name: reduce it through `p_term` to a `Term` primary. -/
def settle : List StackItem → List StackItem
  | .uword s :: rest => .done (.Term s) :: rest
  | st => st

/-- One shift-reduce step of the yacc parser on the next token, with the
conflict resolutions induced by the source's `precedence` table (`OR` and
`AND` right-associative, `AND` tighter, juxtaposition tightest by default
shift).  `none` models `p_error` being invoked. -/
def step (stk : List StackItem) (t : Token) : Option (List StackItem) :=
  match t with
  | .QUOTED_STRING v =>
      match settle stk with
      | .pendingField k :: rest => some (.done (.Field (pyLower k) v) :: rest)
      | st => some (.done (.Term v) :: st)
  | .UNQUOTED_STRING v =>
      match settle stk with
      | .pendingField k :: rest => some (.done (.Field (pyLower k) v) :: rest)
      | st => some (.uword v :: st)
  | .COLON =>
      match stk with
      | .uword s :: rest => some (.pendingField s :: rest)
      | _ => none
  | .AND =>
      match settle stk with
      | .done e :: rest =>
          match reduceJuxtA e rest with
          | (e1, r1) => some (.opAnd :: .done e1 :: r1)
      | _ => none
  | .OR =>
      match settle stk with
      | .done e :: rest =>
          match reduceJuxtA e rest with
          | (e1, r1) =>
              match reduceAndA e1 r1 with
              | (e2, r2) => some (.opOr :: .done e2 :: r2)
      | _ => none
  | .LPAREN =>
      match settle stk with
      | .pendingField _ :: _ => none
      | st => some (.openParen :: st)
  | .RPAREN =>
      match settle stk with
      | .done e :: rest =>
          match reduceJuxtA e rest with
          | (e1, r1) =>
              match reduceOpsA e1 r1 with
              | (e2, .openParen :: r3) => some (.done e2 :: r3)
              | _ => none
      | _ => none

/-- End of input: `p_search_query` builds the `SearchQuery`, from `p_empty`
when no token was seen, else from the single fully reduced expression. -/
def finish (stk : List StackItem) : Option SearchQuery :=
  match settle stk with
  | [] => some ⟨none⟩
  | .done e :: rest =>
      match reduceJuxtA e rest with
      | (e1, r1) =>
          match reduceOpsA e1 r1 with
          | (e2, []) => some ⟨some e2⟩
          | _ => none
  | _ => none

/-- Run the parser over a token stream. -/
def runParse : List StackItem → List Token → Option SearchQuery
  | stk, [] => finish stk
  | stk, t :: ts =>
      match step stk t with
      | some stk2 => runParse stk2 ts
      | none => none

/-- Parse a token stream from the initial (empty) stack; `none` models a
grammar error, i.e. yacc invoking `p_error`. -/
def parseTokens (ts : List Token) : Option SearchQuery :=
  runParse [] ts

/-- Failure kinds of a parse call: the lexer raising `LexError`, or the
token stream not matching the grammar (yacc invokes `p_error`; the Python
code then prints a message and, having no `error` productions, gives up
on the derivation). -/
inductive ParseFailure where
  | lexErr
  | parseErr
deriving DecidableEq

/-- The `parse_search_query` entry point over the embedded lexer and
parser. -/
def parse_search_query (query : String) : Except ParseFailure SearchQuery :=
  match tokenize query with
  | none => .error .lexErr
  | some ts =>
      match parseTokens ts with
      | none => .error .parseErr
      | some q => .ok q

/-- Serialization (`stringify`): quote a value iff it contains a space,
with no escaping; `And`/`Or` always fully parenthesized with explicit
keywords; `Field` as `key:value`. -/
def stringify : Expression → String
  | .Term value =>
      if value.data.contains ' ' then "\"" ++ value ++ "\"" else value
  | .And l r => "(" ++ stringify l ++ " AND " ++ stringify r ++ ")"
  | .Or l r => "(" ++ stringify l ++ " OR " ++ stringify r ++ ")"
  | .Field key value =>
      key ++ ":" ++
        (if value.data.contains ' ' then "\"" ++ value ++ "\"" else value)

/-- Predicate for a "single-word term" string: what the lexer turns into
one `UNQUOTED_STRING` token, namely a nonempty run of unquoted-run
characters that is not reclassified as a keyword. -/
def wordOk (v : String) : Bool :=
  !v.data.isEmpty && v.data.all isUnquotedChar && v != "AND" && v != "OR"

/-- Characters that survive a quoted emission unchanged: `stringify` never
escapes, so a double quote or backslash inside a quoted value breaks
re-lexing or re-decoding. -/
def quotableOk (v : String) : Bool :=
  v.data.all fun c => !(c = '"' || c = '\\')

/-- a `Term`/`Field` value that `stringify` emits in a re-parseable way:
quoted (value contains a space) needs no quote or backslash characters;
bare needs a single non-keyword unquoted run. -/
def valueOk (v : String) : Bool :=
  if v.data.contains ' ' then quotableOk v else wordOk v

/-- ASCII characters, on which `pyLower` agrees exactly with Python's
`str.lower()`. -/
def isAsciiChar (c : Char) : Bool :=
  c.toNat ≤ 0x7f

/-- a `Field` key that `stringify` emits in a re-parseable way: a nonempty
unquoted run of ASCII characters, fixed by lower-casing (hence also not
`AND`/`OR`).  The ASCII bound keeps the predicate inside the range where
the character-wise model of `str.lower()` is exact. -/
def keyOk (k : String) : Bool :=
  !k.data.isEmpty && k.data.all isUnquotedChar && k.data.all isAsciiChar &&
    pyLower k == k

/-- Expressions whose serialization re-parses to the same tree: every
value and key is emission-safe. -/
def roundtrippable : Expression → Bool
  | .Term v => valueOk v
  | .And l r => roundtrippable l && roundtrippable r
  | .Or l r => roundtrippable l && roundtrippable r
  | .Field k v => keyOk k && valueOk v

/-- Invariant of `p_field_value`: every `Field` key is nonempty and fixed
by lower-casing. -/
def fieldKeysOk : Expression → Bool
  | .Term _ => true
  | .And l r => fieldKeysOk l && fieldKeysOk r
  | .Or l r => fieldKeysOk l && fieldKeysOk r
  | .Field k _ => k != "" && pyLower k == k

/-- The token `stringify`'s value emission lexes back to. -/
def valueTok (v : String) : Token :=
  if v.data.contains ' ' then .QUOTED_STRING v else .UNQUOTED_STRING v

/-- The token sequence `stringify e` lexes back to. -/
def toks : Expression → List Token
  | .Term v => [valueTok v]
  | .And l r => .LPAREN :: (toks l ++ .AND :: (toks r ++ [.RPAREN]))
  | .Or l r => .LPAREN :: (toks l ++ .OR :: (toks r ++ [.RPAREN]))
  | .Field k v => .UNQUOTED_STRING k :: .COLON :: [valueTok v]

/-- One unit of the body of `t_QUOTED_STRING`'s regex `"([^"\\]|\\.)*"`:
a plain character (neither quote nor backslash) or a backslash escape. -/
inductive QuotedUnit where
  | lit (c : Char)
  | esc (c : Char)

/-- Raw characters a unit matches. -/
def unitRaw : QuotedUnit → List Char
  | .lit c => [c]
  | .esc c => ['\\', c]

/-- Raw characters a unit list matches. -/
def unitsRaw : List QuotedUnit → List Char
  | [] => []
  | u :: us => unitRaw u ++ unitsRaw us

/-- Decoding a unit: exactly backslash-quote and backslash-backslash are
unescaped, everything else passes through unchanged. -/
def unitDecoded : QuotedUnit → List Char
  | .lit c => [c]
  | .esc c => if c = '"' || c = '\\' then [c] else ['\\', c]

/-- Decoded characters of a unit list. -/
def unitsDecoded : List QuotedUnit → List Char
  | [] => []
  | u :: us => unitDecoded u ++ unitsDecoded us

/-- Well-formedness of a unit against the regex: a plain character is
neither `"` nor `\`, and `\\.` cannot escape a newline. -/
def unitOk : QuotedUnit → Bool
  | .lit c => !(c = '"' || c = '\\')
  | .esc c => c != '\n'

instance : DecidableEq (Except ParseFailure SearchQuery) := fun a b =>
  match a, b with
  | .ok x, .ok y => decidable_of_iff (x = y) (by simp)
  | .error x, .error y => decidable_of_iff (x = y) (by simp)
  | .ok _, .error _ => .isFalse (by simp)
  | .error _, .ok _ => .isFalse (by simp)

/-! Lexer lemmas: how `lexChars` consumes one emitted token, with the
remaining characters abstract. -/

/-- Delimiters after which a pending unquoted run is flushed in the ways
the serialized forms need: end of input, space, `)`, `:`. -/
def flushDelim (cs : List Char) : Prop :=
  cs = [] ∨ (∃ t, cs = ' ' :: t) ∨ (∃ t, cs = ')' :: t) ∨ (∃ t, cs = ':' :: t)

/-- Rest shapes that can follow one serialized subexpression: end of
input, space, `)`. -/
def restDelim (cs : List Char) : Prop :=
  cs = [] ∨ (∃ t, cs = ' ' :: t) ∨ (∃ t, cs = ')' :: t)

theorem restDelim_flushDelim {cs : List Char} (h : restDelim cs) : flushDelim cs := by
  rcases h with h | h | h
  · exact Or.inl h
  · exact Or.inr (Or.inl h)
  · exact Or.inr (Or.inr (Or.inl h))

theorem isIgnoreChar_isPythonSpace {c : Char} (h : isIgnoreChar c = true) :
    isPythonSpace c = true := by
  have hc : c = ' ' ∨ c = '\t' ∨ c = '\n' ∨ c = '\r' := by
    simpa [isIgnoreChar, or_assoc] using h
  rcases hc with rfl | rfl | rfl | rfl <;> decide

theorem isUnquotedChar_spec {c : Char} (h : isUnquotedChar c = true) :
    isIgnoreChar c = false ∧ c ≠ '"' ∧ c ≠ '(' ∧ c ≠ ')' ∧ c ≠ ':' := by
  simp only [isUnquotedChar, Bool.not_eq_true', Bool.or_eq_false_iff,
    decide_eq_false_iff_not] at h
  refine ⟨?_, h.1.1.1.2, h.1.1.2, h.1.2, h.2⟩
  cases hig : isIgnoreChar c
  · rfl
  · exact absurd (isIgnoreChar_isPythonSpace hig) (by simp [h.1.1.1.1])

/-- Flushing a finished run at a delimiter produces its classified token
and continues at token-boundary state. -/
theorem lexChars_run_flush {acc cs : List Char} (h : flushDelim cs) :
    lexChars (.run acc) cs = (lexChars .top cs).map (classifyRun acc :: ·) := by
  rcases h with rfl | ⟨t, rfl⟩ | ⟨t, rfl⟩ | ⟨t, rfl⟩
  · rfl
  · rfl
  · show (lexChars .top t).map (fun ts => classifyRun acc :: .RPAREN :: ts) =
      ((lexChars .top t).map (.RPAREN :: ·)).map (classifyRun acc :: ·)
    cases lexChars .top t <;> rfl
  · show (lexChars .top t).map (fun ts => classifyRun acc :: .COLON :: ts) =
      ((lexChars .top t).map (.COLON :: ·)).map (classifyRun acc :: ·)
    cases lexChars .top t <;> rfl

/-- Unquoted-run characters extend the pending run. -/
theorem lexChars_run_append {v : List Char} (hall : v.all isUnquotedChar = true) :
    ∀ acc cs, lexChars (.run acc) (v ++ cs) = lexChars (.run (acc ++ v)) cs := by
  induction v with
  | nil => intro acc cs; simp
  | cons c v ih =>
      intro acc cs
      simp only [List.all_cons, Bool.and_eq_true] at hall
      show lexChars (.run acc) (c :: (v ++ cs)) = _
      rw [lexChars, if_pos hall.1, ih hall.2, List.append_assoc,
        List.singleton_append]

/-- A maximal unquoted run followed by a flush delimiter lexes to its
classified token. -/
theorem lexChars_top_run {v cs : List Char} (hne : v ≠ [])
    (hall : v.all isUnquotedChar = true) (hcs : flushDelim cs) :
    lexChars .top (v ++ cs) = (lexChars .top cs).map (classifyRun v :: ·) := by
  obtain ⟨c, v, rfl⟩ : ∃ c t, v = c :: t := by
    cases v with
    | nil => exact absurd rfl hne
    | cons c t => exact ⟨c, t, rfl⟩
  simp only [List.all_cons, Bool.and_eq_true] at hall
  obtain ⟨hig, hq, hl, hr, hc⟩ := isUnquotedChar_spec hall.1
  show lexChars .top (c :: (v ++ cs)) = _
  rw [lexChars, if_neg (by simp [hig]), if_neg (by simp [hq]),
    if_neg (by simp [hl]), if_neg (by simp [hr]), if_neg (by simp [hc]),
    if_pos hall.1]
  rw [lexChars_run_append hall.2, List.singleton_append, lexChars_run_flush hcs]

/-- Plain characters (neither quote nor backslash) extend a quoted body. -/
theorem lexChars_quote_append {v : List Char}
    (hq : v.all (fun c => !(c = '"' || c = '\\')) = true) :
    ∀ acc cs, lexChars (.quote acc) (v ++ cs) = lexChars (.quote (acc ++ v)) cs := by
  induction v with
  | nil => intro acc cs; simp
  | cons c v ih =>
      intro acc cs
      simp only [List.all_cons, Bool.and_eq_true, Bool.not_eq_true',
        Bool.or_eq_false_iff, decide_eq_false_iff_not] at hq
      show lexChars (.quote acc) (c :: (v ++ cs)) = _
      rw [lexChars, if_neg (by simp [hq.1.1]), if_neg (by simp [hq.1.2]),
        ih (by simpa using hq.2), List.append_assoc, List.singleton_append]

theorem replaceEscapedQuote_no_backslash {v : List Char} (h : '\\' ∉ v) :
    replaceEscapedQuote v = v := by
  induction v with
  | nil => rfl
  | cons c v ih =>
      simp only [List.mem_cons, not_or] at h
      cases v with
      | nil => rfl
      | cons d t =>
          rw [replaceEscapedQuote, if_neg (by simp [Ne.symm h.1])]
          rw [ih (by simp_all [List.mem_cons])]

theorem replaceEscapedBackslash_no_backslash {v : List Char} (h : '\\' ∉ v) :
    replaceEscapedBackslash v = v := by
  induction v with
  | nil => rfl
  | cons c v ih =>
      simp only [List.mem_cons, not_or] at h
      cases v with
      | nil => rfl
      | cons d t =>
          rw [replaceEscapedBackslash, if_neg (by simp [Ne.symm h.1])]
          rw [ih (by simp_all [List.mem_cons])]

/-- Decoding is the identity on bodies without a backslash. -/
theorem decodeQuoted_no_backslash {v : List Char} (h : '\\' ∉ v) :
    decodeQuoted v = v := by
  rw [decodeQuoted, replaceEscapedQuote_no_backslash h,
    replaceEscapedBackslash_no_backslash h]

/-- A quoted string whose body has no quote or backslash lexes to one
`QUOTED_STRING` token with the body unchanged. -/
theorem lexChars_top_quoted {v : List Char}
    (hq : v.all (fun c => !(c = '"' || c = '\\')) = true) (cs : List Char) :
    lexChars .top ('"' :: (v ++ '"' :: cs)) =
      (lexChars .top cs).map (.QUOTED_STRING ⟨v⟩ :: ·) := by
  have hnb : '\\' ∉ v := by
    intro hm
    have := List.all_eq_true.mp hq _ hm
    simp at this
  show lexChars (.quote []) (v ++ '"' :: cs) = _
  rw [lexChars_quote_append hq, List.nil_append]
  show (lexChars .top cs).map (.QUOTED_STRING ⟨decodeQuoted v⟩ :: ·) = _
  rw [decodeQuoted_no_backslash hnb]

/-- The serialized separator `" AND "` lexes to the `AND` keyword token. -/
theorem lexChars_top_sepAND (cs : List Char) :
    lexChars .top (' ' :: 'A' :: 'N' :: 'D' :: ' ' :: cs) =
      (lexChars .top cs).map (.AND :: ·) := rfl

/-- The serialized separator `" OR "` lexes to the `OR` keyword token. -/
theorem lexChars_top_sepOR (cs : List Char) :
    lexChars .top (' ' :: 'O' :: 'R' :: ' ' :: cs) =
      (lexChars .top cs).map (.OR :: ·) := rfl

theorem string_mk_data (s : String) : String.mk s.data = s := by
  obtain ⟨d⟩ := s; rfl

theorem data_ne_of_ne {s t : String} (h : s ≠ t) : s.data ≠ t.data := by
  intro hd
  exact h (String.ext hd)

/-! Parser lemmas: how the shift-reduce machine consumes the token list of
one serialized subexpression. -/

/-- Stacks on which a fresh primary may start: empty, or topped by an open
parenthesis or a pending operator. -/
def stackOk (stk : List StackItem) : Prop :=
  stk = [] ∨ (∃ t, stk = .openParen :: t) ∨ (∃ t, stk = .opAnd :: t) ∨
    (∃ t, stk = .opOr :: t)

/-- Continuations after a serialized subexpression: end of input, or an
explicit operator or closing parenthesis. -/
def nextOk (ts : List Token) : Prop :=
  ts = [] ∨ (∃ t, ts = .AND :: t) ∨ (∃ t, ts = .OR :: t) ∨
    (∃ t, ts = .RPAREN :: t)

/-- On a `nextOk` continuation, an unresolved word and its settled `Term`
behave identically: the next step settles it first. -/
theorem runParse_uword {v : String} {stk : List StackItem} {ts : List Token}
    (h : nextOk ts) :
    runParse (.uword v :: stk) ts = runParse (.done (.Term v) :: stk) ts := by
  rcases h with rfl | ⟨t, rfl⟩ | ⟨t, rfl⟩ | ⟨t, rfl⟩ <;> rfl

theorem step_quoted {stk : List StackItem} (h : stackOk stk) (v : String) :
    step stk (.QUOTED_STRING v) = some (.done (.Term v) :: stk) := by
  rcases h with rfl | ⟨t, rfl⟩ | ⟨t, rfl⟩ | ⟨t, rfl⟩ <;> rfl

theorem step_unquoted {stk : List StackItem} (h : stackOk stk) (v : String) :
    step stk (.UNQUOTED_STRING v) = some (.uword v :: stk) := by
  rcases h with rfl | ⟨t, rfl⟩ | ⟨t, rfl⟩ | ⟨t, rfl⟩ <;> rfl

theorem step_lparen {stk : List StackItem} (h : stackOk stk) :
    step stk .LPAREN = some (.openParen :: stk) := by
  rcases h with rfl | ⟨t, rfl⟩ | ⟨t, rfl⟩ | ⟨t, rfl⟩ <;> rfl

theorem keyOk_props {k : String} (h : keyOk k = true) :
    pyLower k = k ∧ k ≠ "AND" ∧ k ≠ "OR" := by
  simp only [keyOk, Bool.and_eq_true, beq_iff_eq] at h
  refine ⟨h.2, ?_, ?_⟩ <;> rintro rfl <;> revert h <;> decide

theorem wordOk_props {v : String} (h : wordOk v = true) :
    v.data ≠ [] ∧ v.data.all isUnquotedChar = true ∧ v ≠ "AND" ∧ v ≠ "OR" := by
  simp only [wordOk, Bool.and_eq_true, bne_iff_ne, Bool.not_eq_true'] at h
  refine ⟨?_, h.1.1.2, h.1.2, h.2⟩
  intro hd
  rw [hd] at h
  exact absurd h.1.1.1 (by decide)

/-- A `wordOk` word is classified back to its own `UNQUOTED_STRING`
token. -/
theorem classifyRun_word {v : String} (h : wordOk v = true) :
    classifyRun v.data = .UNQUOTED_STRING v := by
  obtain ⟨-, -, hA, hO⟩ := wordOk_props h
  rw [classifyRun, if_neg (data_ne_of_ne hA), if_neg (data_ne_of_ne hO),
    string_mk_data]

/-- A `keyOk` key is classified back to its own `UNQUOTED_STRING` token. -/
theorem classifyRun_key {k : String} (h : keyOk k = true) :
    classifyRun k.data = .UNQUOTED_STRING k := by
  obtain ⟨-, hA, hO⟩ := keyOk_props h
  rw [classifyRun, if_neg (data_ne_of_ne hA), if_neg (data_ne_of_ne hO),
    string_mk_data]

/-- One machine move, with the step's result supplied. -/
theorem runParse_cons {stk stk2 : List StackItem} {t : Token}
    (h : step stk t = some stk2) (ts : List Token) :
    runParse stk (t :: ts) = runParse stk2 ts := by
  rw [runParse, h]

/-- The machine consumes the token list of one serialized subexpression
from any `stackOk` stack and leaves its reduced expression on top, when a
`nextOk` continuation follows. -/
theorem runParse_toks : ∀ e : Expression, roundtrippable e = true →
    ∀ stk ts, stackOk stk → nextOk ts →
      runParse stk (toks e ++ ts) = runParse (.done e :: stk) ts := by
  intro e
  induction e with
  | Term v =>
      intro h stk ts hstk hts
      rw [toks, List.singleton_append]
      by_cases hsp : v.data.contains ' '
      · rw [valueTok, if_pos hsp, runParse_cons (step_quoted hstk v)]
      · rw [valueTok, if_neg hsp, runParse_cons (step_unquoted hstk v),
          runParse_uword hts]
  | Field k v =>
      intro h stk ts hstk hts
      simp only [roundtrippable, Bool.and_eq_true] at h
      obtain ⟨hlow, -, -⟩ := keyOk_props h.1
      rw [toks]
      show runParse stk (.UNQUOTED_STRING k :: .COLON :: valueTok v :: ts) = _
      rw [runParse_cons (step_unquoted hstk k)]
      have hcolon : step (.uword k :: stk) .COLON =
          some (.pendingField k :: stk) := rfl
      rw [runParse_cons hcolon]
      by_cases hsp : v.data.contains ' '
      · rw [valueTok, if_pos hsp]
        have hval : step (.pendingField k :: stk) (.QUOTED_STRING v) =
            some (.done (.Field (pyLower k) v) :: stk) := rfl
        rw [runParse_cons hval, hlow]
      · rw [valueTok, if_neg hsp]
        have hval : step (.pendingField k :: stk) (.UNQUOTED_STRING v) =
            some (.done (.Field (pyLower k) v) :: stk) := rfl
        rw [runParse_cons hval, hlow]
  | And l r ihl ihr =>
      intro h stk ts hstk hts
      simp only [roundtrippable, Bool.and_eq_true] at h
      rw [toks]
      simp only [List.cons_append, List.append_assoc, List.singleton_append,
        List.nil_append]
      rw [runParse_cons (step_lparen hstk)]
      rw [ihl h.1 (.openParen :: stk) _ (Or.inr (Or.inl ⟨stk, rfl⟩))
        (Or.inr (Or.inl ⟨_, rfl⟩))]
      have hand : step (.done l :: .openParen :: stk) .AND =
          some (.opAnd :: .done l :: .openParen :: stk) := rfl
      rw [runParse_cons hand]
      rw [ihr h.2 _ _ (Or.inr (Or.inr (Or.inl ⟨_, rfl⟩)))
        (Or.inr (Or.inr (Or.inr ⟨ts, rfl⟩)))]
      have hrp : step (.done r :: .opAnd :: .done l :: .openParen :: stk)
          .RPAREN = some (.done (.And l r) :: stk) := rfl
      rw [runParse_cons hrp]
  | Or l r ihl ihr =>
      intro h stk ts hstk hts
      simp only [roundtrippable, Bool.and_eq_true] at h
      rw [toks]
      simp only [List.cons_append, List.append_assoc, List.singleton_append,
        List.nil_append]
      rw [runParse_cons (step_lparen hstk)]
      rw [ihl h.1 (.openParen :: stk) _ (Or.inr (Or.inl ⟨stk, rfl⟩))
        (Or.inr (Or.inr (Or.inl ⟨_, rfl⟩)))]
      have hor : step (.done l :: .openParen :: stk) .OR =
          some (.opOr :: .done l :: .openParen :: stk) := rfl
      rw [runParse_cons hor]
      rw [ihr h.2 _ _ (Or.inr (Or.inr (Or.inr ⟨_, rfl⟩)))
        (Or.inr (Or.inr (Or.inr ⟨ts, rfl⟩)))]
      have hrp : step (.done r :: .opOr :: .done l :: .openParen :: stk)
          .RPAREN = some (.done (.Or l r) :: stk) := rfl
      rw [runParse_cons hrp]

theorem lexChars_top_colon (cs : List Char) :
    lexChars .top (':' :: cs) = (lexChars .top cs).map (.COLON :: ·) := rfl

theorem lexChars_top_lparen (cs : List Char) :
    lexChars .top ('(' :: cs) = (lexChars .top cs).map (.LPAREN :: ·) := rfl

theorem lexChars_top_rparen (cs : List Char) :
    lexChars .top (')' :: cs) = (lexChars .top cs).map (.RPAREN :: ·) := rfl

theorem valueOk_quoted {v : String} (h : valueOk v = true)
    (hsp : v.data.contains ' ' = true) :
    v.data.all (fun c => !(c = '"' || c = '\\')) = true := by
  rw [valueOk, if_pos hsp] at h
  exact h

theorem valueOk_word {v : String} (h : valueOk v = true)
    (hsp : ¬v.data.contains ' ' = true) : wordOk v = true := by
  rw [valueOk, if_neg hsp] at h
  exact h

theorem keyOk_data {k : String} (h : keyOk k = true) :
    k.data ≠ [] ∧ k.data.all isUnquotedChar = true := by
  simp only [keyOk, Bool.and_eq_true, Bool.not_eq_true'] at h
  refine ⟨?_, h.1.1.2⟩
  intro hd
  rw [hd] at h
  exact absurd h.1.1.1 (by decide)

/-- The value emission of `stringify` (quote iff it contains a space)
lexes back to the single token `valueTok v`. -/
theorem lexChars_top_value {v : String} (h : valueOk v = true)
    {cs : List Char} (hcs : restDelim cs) :
    lexChars .top ((if v.data.contains ' ' then "\"" ++ v ++ "\"" else v).data ++ cs) =
      (lexChars .top cs).map (valueTok v :: ·) := by
  by_cases hsp : v.data.contains ' '
  · rw [if_pos hsp, valueTok, if_pos hsp]
    have hdata : ("\"" ++ v ++ "\"").data ++ cs = '"' :: (v.data ++ '"' :: cs) := by
      simp only [String.data_append, List.append_assoc]
      rfl
    rw [hdata, lexChars_top_quoted (valueOk_quoted h hsp), string_mk_data]
  · rw [if_neg hsp, valueTok, if_neg hsp]
    obtain ⟨hne, hall, -, -⟩ := wordOk_props (valueOk_word h hsp)
    rw [lexChars_top_run hne hall (restDelim_flushDelim hcs),
      classifyRun_word (valueOk_word h hsp)]

/-- Lexing one serialized subexpression yields its token list and
continues at the remaining characters. -/
theorem lexChars_top_stringify : ∀ e : Expression, roundtrippable e = true →
    ∀ cs, restDelim cs →
      lexChars .top ((stringify e).data ++ cs) =
        (lexChars .top cs).map (toks e ++ ·) := by
  intro e
  induction e with
  | Term v =>
      intro h cs hcs
      rw [stringify, lexChars_top_value h hcs]
      rfl
  | Field k v =>
      intro h cs hcs
      simp only [roundtrippable, Bool.and_eq_true] at h
      obtain ⟨hkne, hkall⟩ := keyOk_data h.1
      rw [stringify]
      have hdata : (k ++ ":" ++
          (if v.data.contains ' ' then "\"" ++ v ++ "\"" else v)).data ++ cs =
          k.data ++ (':' ::
            ((if v.data.contains ' ' then "\"" ++ v ++ "\"" else v).data ++ cs)) := by
        simp only [String.data_append, List.append_assoc]
        rfl
      rw [hdata,
        lexChars_top_run hkne hkall (Or.inr (Or.inr (Or.inr ⟨_, rfl⟩))),
        classifyRun_key h.1, lexChars_top_colon, lexChars_top_value h.2 hcs]
      cases lexChars .top cs <;> rfl
  | And l r ihl ihr =>
      intro h cs hcs
      simp only [roundtrippable, Bool.and_eq_true] at h
      rw [stringify]
      have hdata : ("(" ++ stringify l ++ " AND " ++ stringify r ++ ")").data ++ cs =
          '(' :: ((stringify l).data ++
            (' ' :: 'A' :: 'N' :: 'D' :: ' ' :: ((stringify r).data ++ (')' :: cs)))) := by
        simp only [String.data_append, List.append_assoc]
        rfl
      rw [hdata, lexChars_top_lparen,
        ihl h.1 _ (Or.inr (Or.inl ⟨_, rfl⟩)), lexChars_top_sepAND,
        ihr h.2 _ (Or.inr (Or.inr ⟨_, rfl⟩)), lexChars_top_rparen]
      cases lexChars .top cs with
      | none => rfl
      | some ts0 => simp [toks, List.append_assoc]
  | Or l r ihl ihr =>
      intro h cs hcs
      simp only [roundtrippable, Bool.and_eq_true] at h
      rw [stringify]
      have hdata : ("(" ++ stringify l ++ " OR " ++ stringify r ++ ")").data ++ cs =
          '(' :: ((stringify l).data ++
            (' ' :: 'O' :: 'R' :: ' ' :: ((stringify r).data ++ (')' :: cs)))) := by
        simp only [String.data_append, List.append_assoc]
        rfl
      rw [hdata, lexChars_top_lparen,
        ihl h.1 _ (Or.inr (Or.inl ⟨_, rfl⟩)), lexChars_top_sepOR,
        ihr h.2 _ (Or.inr (Or.inr ⟨_, rfl⟩)), lexChars_top_rparen]
      cases lexChars .top cs with
      | none => rfl
      | some ts0 => simp [toks, List.append_assoc]

/-- Tokenizing a serialized expression yields exactly its token list. -/
theorem tokenize_stringify {e : Expression} (h : roundtrippable e = true) :
    tokenize (stringify e) = some (toks e) := by
  have := lexChars_top_stringify e h [] (Or.inl rfl)
  rw [List.append_nil] at this
  rw [tokenize, this]
  show some (toks e ++ []) = some (toks e)
  rw [List.append_nil]

/-- Parsing a serialized expression's token list returns exactly the
expression. -/
theorem parseTokens_toks {e : Expression} (h : roundtrippable e = true) :
    parseTokens (toks e) = some ⟨some e⟩ := by
  have := runParse_toks e h [] [] (Or.inl rfl) (Or.inl rfl)
  rw [List.append_nil] at this
  rw [parseTokens, this]
  rfl

/-! Field-key invariant machinery: `str.lower` is idempotent and preserves
nonemptiness, every `UNQUOTED_STRING` token is nonempty, and the machine
only builds `Field` nodes through `p_field_value`'s lower-casing. -/

theorem toNat_ofNatAux (n : Nat) (h : n.isValidChar) :
    (Char.ofNatAux n h).toNat = n := by
  simp [Char.ofNatAux, Char.toNat, UInt32.toNat]

theorem toNat_ofNat_valid (n : Nat) (h : n.isValidChar) :
    (Char.ofNat n).toNat = n := by
  rw [Char.ofNat, dif_pos h, toNat_ofNatAux]

theorem char_toLower_idem (c : Char) : (c.toLower).toLower = c.toLower := by
  unfold Char.toLower
  by_cases h : c.toNat ≥ 65 ∧ c.toNat ≤ 90
  · rw [if_pos h]
    have hv : (c.toNat + 32).isValidChar := Or.inl (by omega)
    rw [toNat_ofNat_valid _ hv, if_neg (by omega)]
  · rw [if_neg h, if_neg h]

theorem pyLower_idem (s : String) : pyLower (pyLower s) = pyLower s := by
  simp only [pyLower, List.map_map]
  congr 1
  apply List.map_congr_left
  intro c _
  exact char_toLower_idem c

theorem pyLower_ne_empty {k : String} (h : k ≠ "") : pyLower k ≠ "" := by
  intro he
  apply h
  apply String.ext
  have hd : (pyLower k).data = [] := by rw [he]
  have hm : k.data.map Char.toLower = [] := hd
  exact List.map_eq_nil_iff.mp hm

/-- Token-level invariant: `UNQUOTED_STRING` text is never empty (it comes
from a nonempty maximal run). -/
def tokOk : Token → Prop
  | .UNQUOTED_STRING s => s ≠ ""
  | _ => True

/-- Lexer-state invariant: a pending run is nonempty. -/
def modeOk : LexMode → Prop
  | .run acc => acc ≠ []
  | _ => True

theorem modeOk_top : modeOk .top := trivial

theorem modeOk_quote (acc : List Char) : modeOk (.quote acc) := trivial

theorem modeOk_quoteEsc (acc : List Char) : modeOk (.quoteEsc acc) := trivial

theorem modeOk_run {acc : List Char} (h : acc ≠ []) : modeOk (.run acc) := h

theorem classifyRun_tokOk {acc : List Char} (h : acc ≠ []) :
    tokOk (classifyRun acc) := by
  rw [classifyRun]
  split
  · trivial
  · split
    · trivial
    · show (⟨acc⟩ : String) ≠ ""
      intro he
      exact h (by simpa using congrArg String.data he)

theorem lexChars_tokOk : ∀ (cs : List Char) (mode : LexMode) (ts : List Token),
    modeOk mode → lexChars mode cs = some ts → ∀ t ∈ ts, tokOk t := by
  intro cs
  induction cs with
  | nil =>
      intro mode ts hm h t ht
      cases mode with
      | top =>
          obtain rfl : [] = ts := by simpa [lexChars] using h
          simp at ht
      | run acc =>
          obtain rfl : [classifyRun acc] = ts := by simpa [lexChars] using h
          rw [List.mem_singleton] at ht
          subst ht
          exact classifyRun_tokOk hm
      | quote acc => simp [lexChars] at h
      | quoteEsc acc => simp [lexChars] at h
  | cons c cs ih =>
      intro mode ts hm h t ht
      cases mode with
      | top =>
          rw [lexChars] at h
          split at h
          · exact ih _ _ modeOk_top h t ht
          · split at h
            · exact ih _ _ (modeOk_quote _) h t ht
            · split at h
              · obtain ⟨ts', hts', rfl⟩ := Option.map_eq_some'.mp h
                rcases List.mem_cons.mp ht with rfl | ht'
                · trivial
                · exact ih _ _ modeOk_top hts' t ht'
              · split at h
                · obtain ⟨ts', hts', rfl⟩ := Option.map_eq_some'.mp h
                  rcases List.mem_cons.mp ht with rfl | ht'
                  · trivial
                  · exact ih _ _ modeOk_top hts' t ht'
                · split at h
                  · obtain ⟨ts', hts', rfl⟩ := Option.map_eq_some'.mp h
                    rcases List.mem_cons.mp ht with rfl | ht'
                    · trivial
                    · exact ih _ _ modeOk_top hts' t ht'
                  · split at h
                    · exact ih _ _ (modeOk_run (by simp)) h t ht
                    · exact absurd h (by simp)
      | run acc =>
          rw [lexChars] at h
          split at h
          · exact ih _ _ (modeOk_run (by simp)) h t ht
          · split at h
            · obtain ⟨ts', hts', rfl⟩ := Option.map_eq_some'.mp h
              rcases List.mem_cons.mp ht with rfl | ht'
              · exact classifyRun_tokOk hm
              · exact ih _ _ modeOk_top hts' t ht'
            · split at h
              · obtain ⟨ts', hts', rfl⟩ := Option.map_eq_some'.mp h
                rcases List.mem_cons.mp ht with rfl | ht'
                · exact classifyRun_tokOk hm
                · exact ih _ _ (modeOk_quote _) hts' t ht'
              · split at h
                · obtain ⟨ts', hts', rfl⟩ := Option.map_eq_some'.mp h
                  rcases List.mem_cons.mp ht with rfl | ht'
                  · exact classifyRun_tokOk hm
                  · rcases List.mem_cons.mp ht' with rfl | ht''
                    · trivial
                    · exact ih _ _ modeOk_top hts' t ht''
                · split at h
                  · obtain ⟨ts', hts', rfl⟩ := Option.map_eq_some'.mp h
                    rcases List.mem_cons.mp ht with rfl | ht'
                    · exact classifyRun_tokOk hm
                    · rcases List.mem_cons.mp ht' with rfl | ht''
                      · trivial
                      · exact ih _ _ modeOk_top hts' t ht''
                  · split at h
                    · obtain ⟨ts', hts', rfl⟩ := Option.map_eq_some'.mp h
                      rcases List.mem_cons.mp ht with rfl | ht'
                      · exact classifyRun_tokOk hm
                      · rcases List.mem_cons.mp ht' with rfl | ht''
                        · trivial
                        · exact ih _ _ modeOk_top hts' t ht''
                    · exact absurd h (by simp)
      | quote acc =>
          rw [lexChars] at h
          split at h
          · obtain ⟨ts', hts', rfl⟩ := Option.map_eq_some'.mp h
            rcases List.mem_cons.mp ht with rfl | ht'
            · trivial
            · exact ih _ _ modeOk_top hts' t ht'
          · split at h
            · exact ih _ _ (modeOk_quoteEsc _) h t ht
            · exact ih _ _ (modeOk_quote _) h t ht
      | quoteEsc acc =>
          rw [lexChars] at h
          split at h
          · exact absurd h (by simp)
          · exact ih _ _ (modeOk_quote _) h t ht

/-- Per-item invariant on the parse stack. -/
def itemOk : StackItem → Prop
  | .done e => fieldKeysOk e = true
  | .uword s => s ≠ ""
  | .pendingField k => k ≠ ""
  | _ => True

/-- Every stack item satisfies its invariant. -/
def stackInv (stk : List StackItem) : Prop := ∀ i ∈ stk, itemOk i

theorem stackInv_cons {i : StackItem} {stk : List StackItem} :
    stackInv (i :: stk) ↔ itemOk i ∧ stackInv stk := by
  simp [stackInv]

theorem fieldKeysOk_And {a b : Expression} (ha : fieldKeysOk a = true)
    (hb : fieldKeysOk b = true) : fieldKeysOk (.And a b) = true := by
  simp [fieldKeysOk, ha, hb]

theorem fieldKeysOk_Or {a b : Expression} (ha : fieldKeysOk a = true)
    (hb : fieldKeysOk b = true) : fieldKeysOk (.Or a b) = true := by
  simp [fieldKeysOk, ha, hb]

theorem reduceJuxtA_ok : ∀ (rest : List StackItem) (e : Expression),
    fieldKeysOk e = true → stackInv rest →
    fieldKeysOk (reduceJuxtA e rest).1 = true ∧ stackInv (reduceJuxtA e rest).2 := by
  intro rest
  induction rest with
  | nil => exact fun e he hr => ⟨he, hr⟩
  | cons i l ih =>
      intro e he hr
      rw [stackInv_cons] at hr
      cases i with
      | done a => exact ih (.And a e) (fieldKeysOk_And hr.1 he) hr.2
      | openParen => exact ⟨he, stackInv_cons.mpr hr⟩
      | opAnd => exact ⟨he, stackInv_cons.mpr hr⟩
      | opOr => exact ⟨he, stackInv_cons.mpr hr⟩
      | uword s => exact ⟨he, stackInv_cons.mpr hr⟩
      | pendingField k => exact ⟨he, stackInv_cons.mpr hr⟩

theorem reduceAndA_okAux : ∀ (n : Nat) (rest : List StackItem),
    rest.length ≤ n → ∀ e, fieldKeysOk e = true → stackInv rest →
    fieldKeysOk (reduceAndA e rest).1 = true ∧ stackInv (reduceAndA e rest).2 := by
  intro n
  induction n with
  | zero =>
      intro rest hlen e he hr
      obtain rfl : rest = [] := List.eq_nil_of_length_eq_zero (Nat.le_zero.mp hlen)
      exact ⟨he, hr⟩
  | succ n ihn =>
      intro rest hlen e he hr
      rcases rest with _ | ⟨i, l⟩
      · exact ⟨he, hr⟩
      cases i with
      | opAnd =>
          rcases l with _ | ⟨j, l2⟩
          · exact ⟨he, hr⟩
          cases j with
          | done a =>
              rw [stackInv_cons, stackInv_cons] at hr
              exact ihn l2 (by simp at hlen ⊢; omega) (.And a e)
                (fieldKeysOk_And hr.2.1 he) hr.2.2
          | openParen => exact ⟨he, hr⟩
          | opAnd => exact ⟨he, hr⟩
          | opOr => exact ⟨he, hr⟩
          | uword s => exact ⟨he, hr⟩
          | pendingField k => exact ⟨he, hr⟩
      | done a => exact ⟨he, hr⟩
      | openParen => exact ⟨he, hr⟩
      | opOr => exact ⟨he, hr⟩
      | uword s => exact ⟨he, hr⟩
      | pendingField k => exact ⟨he, hr⟩

theorem reduceAndA_inv (rest : List StackItem) (e : Expression)
    (he : fieldKeysOk e = true) (hr : stackInv rest) :
    fieldKeysOk (reduceAndA e rest).1 = true ∧ stackInv (reduceAndA e rest).2 :=
  reduceAndA_okAux rest.length rest le_rfl e he hr

theorem reduceOpsA_okAux : ∀ (n : Nat) (rest : List StackItem),
    rest.length ≤ n → ∀ e, fieldKeysOk e = true → stackInv rest →
    fieldKeysOk (reduceOpsA e rest).1 = true ∧ stackInv (reduceOpsA e rest).2 := by
  intro n
  induction n with
  | zero =>
      intro rest hlen e he hr
      obtain rfl : rest = [] := List.eq_nil_of_length_eq_zero (Nat.le_zero.mp hlen)
      exact ⟨he, hr⟩
  | succ n ihn =>
      intro rest hlen e he hr
      rcases rest with _ | ⟨i, l⟩
      · exact ⟨he, hr⟩
      cases i with
      | opAnd =>
          rcases l with _ | ⟨j, l2⟩
          · exact ⟨he, hr⟩
          cases j with
          | done a =>
              rw [stackInv_cons, stackInv_cons] at hr
              exact ihn l2 (by simp at hlen ⊢; omega) (.And a e)
                (fieldKeysOk_And hr.2.1 he) hr.2.2
          | openParen => exact ⟨he, hr⟩
          | opAnd => exact ⟨he, hr⟩
          | opOr => exact ⟨he, hr⟩
          | uword s => exact ⟨he, hr⟩
          | pendingField k => exact ⟨he, hr⟩
      | opOr =>
          rcases l with _ | ⟨j, l2⟩
          · exact ⟨he, hr⟩
          cases j with
          | done a =>
              rw [stackInv_cons, stackInv_cons] at hr
              exact ihn l2 (by simp at hlen ⊢; omega) (.Or a e)
                (fieldKeysOk_Or hr.2.1 he) hr.2.2
          | openParen => exact ⟨he, hr⟩
          | opAnd => exact ⟨he, hr⟩
          | opOr => exact ⟨he, hr⟩
          | uword s => exact ⟨he, hr⟩
          | pendingField k => exact ⟨he, hr⟩
      | done a => exact ⟨he, hr⟩
      | openParen => exact ⟨he, hr⟩
      | uword s => exact ⟨he, hr⟩
      | pendingField k => exact ⟨he, hr⟩

theorem reduceOpsA_inv (rest : List StackItem) (e : Expression)
    (he : fieldKeysOk e = true) (hr : stackInv rest) :
    fieldKeysOk (reduceOpsA e rest).1 = true ∧ stackInv (reduceOpsA e rest).2 :=
  reduceOpsA_okAux rest.length rest le_rfl e he hr

theorem settle_inv {stk : List StackItem} (h : stackInv stk) :
    stackInv (settle stk) := by
  rcases stk with _ | ⟨i, l⟩
  · exact h
  cases i with
  | uword s =>
      show stackInv (.done (.Term s) :: l)
      rw [stackInv_cons] at h ⊢
      exact ⟨rfl, h.2⟩
  | done e => exact h
  | openParen => exact h
  | opAnd => exact h
  | opOr => exact h
  | pendingField k => exact h

theorem step_inv : ∀ (t : Token) (stk stk2 : List StackItem),
    step stk t = some stk2 → stackInv stk → tokOk t → stackInv stk2 := by
  intro t stk stk2 h hstk htok
  have hsi := settle_inv hstk
  cases t with
  | QUOTED_STRING v =>
      rw [step] at h
      split at h
      next k rest heq =>
          injection h with h2
          subst h2
          rw [heq, stackInv_cons] at hsi
          refine stackInv_cons.mpr ⟨?_, hsi.2⟩
          show fieldKeysOk (.Field (pyLower k) v) = true
          have hk : k ≠ "" := hsi.1
          simp [fieldKeysOk, pyLower_idem, pyLower_ne_empty hk]
      next =>
          injection h with h2
          subst h2
          exact stackInv_cons.mpr ⟨rfl, hsi⟩
  | UNQUOTED_STRING v =>
      rw [step] at h
      split at h
      next k rest heq =>
          injection h with h2
          subst h2
          rw [heq, stackInv_cons] at hsi
          refine stackInv_cons.mpr ⟨?_, hsi.2⟩
          show fieldKeysOk (.Field (pyLower k) v) = true
          have hk : k ≠ "" := hsi.1
          simp [fieldKeysOk, pyLower_idem, pyLower_ne_empty hk]
      next =>
          injection h with h2
          subst h2
          exact stackInv_cons.mpr ⟨htok, hsi⟩
  | COLON =>
      rcases stk with _ | ⟨i, l⟩
      · exact Option.noConfusion h
      cases i with
      | uword s =>
          have h2 : some (StackItem.pendingField s :: l) = some stk2 := h
          injection h2 with h3
          subst h3
          rw [stackInv_cons] at hstk
          exact stackInv_cons.mpr ⟨hstk.1, hstk.2⟩
      | openParen => exact Option.noConfusion h
      | opAnd => exact Option.noConfusion h
      | opOr => exact Option.noConfusion h
      | pendingField k => exact Option.noConfusion h
      | done e => exact Option.noConfusion h
  | AND =>
      rw [step] at h
      split at h
      next e rest heq =>
          rw [heq, stackInv_cons] at hsi
          obtain ⟨h1, h2⟩ := reduceJuxtA_ok rest e hsi.1 hsi.2
          rcases hj : reduceJuxtA e rest with ⟨e1, r1⟩
          rw [hj] at h1 h2
          simp only [hj] at h
          injection h with h3
          subst h3
          exact stackInv_cons.mpr ⟨trivial, stackInv_cons.mpr ⟨h1, h2⟩⟩
      next => exact Option.noConfusion h
  | OR =>
      rw [step] at h
      split at h
      next e rest heq =>
          rw [heq, stackInv_cons] at hsi
          obtain ⟨h1, h2⟩ := reduceJuxtA_ok rest e hsi.1 hsi.2
          rcases hj : reduceJuxtA e rest with ⟨e1, r1⟩
          rw [hj] at h1 h2
          simp only [hj] at h
          obtain ⟨h3, h4⟩ := reduceAndA_inv r1 e1 h1 h2
          rcases ha : reduceAndA e1 r1 with ⟨e2, r2⟩
          rw [ha] at h3 h4
          simp only [ha] at h
          injection h with h5
          subst h5
          exact stackInv_cons.mpr ⟨trivial, stackInv_cons.mpr ⟨h3, h4⟩⟩
      next => exact Option.noConfusion h
  | LPAREN =>
      rw [step] at h
      split at h
      next => exact Option.noConfusion h
      next =>
          injection h with h2
          subst h2
          exact stackInv_cons.mpr ⟨trivial, hsi⟩
  | RPAREN =>
      rw [step] at h
      split at h
      next e rest heq =>
          rw [heq, stackInv_cons] at hsi
          obtain ⟨h1, h2⟩ := reduceJuxtA_ok rest e hsi.1 hsi.2
          rcases hj : reduceJuxtA e rest with ⟨e1, r1⟩
          rw [hj] at h1 h2
          simp only [hj] at h
          obtain ⟨h3, h4⟩ := reduceOpsA_inv r1 e1 h1 h2
          rcases ho : reduceOpsA e1 r1 with ⟨e2, r2⟩
          rw [ho] at h3 h4
          simp only [ho] at h
          rcases r2 with _ | ⟨j, r3⟩
          · exact Option.noConfusion h
          cases j with
          | openParen =>
              injection h with h5
              subst h5
              rw [stackInv_cons] at h4
              exact stackInv_cons.mpr ⟨h3, h4.2⟩
          | opAnd => exact Option.noConfusion h
          | opOr => exact Option.noConfusion h
          | uword s => exact Option.noConfusion h
          | pendingField k => exact Option.noConfusion h
          | done e0 => exact Option.noConfusion h
      next => exact Option.noConfusion h

/-- Any expression the machine accepts satisfies the field-key invariant:
its `Field` keys are nonempty and fixed by lower-casing. -/
theorem runParse_fieldKeysOk : ∀ (ts : List Token) (stk : List StackItem)
    (q : SearchQuery), runParse stk ts = some q → stackInv stk →
    (∀ t ∈ ts, tokOk t) → ∀ e, q.expression = some e → fieldKeysOk e = true := by
  intro ts
  induction ts with
  | nil =>
      intro stk q h hstk htok e heq
      rw [runParse, finish] at h
      have hsi := settle_inv hstk
      split at h
      · injection h with h2
        subst h2
        exact absurd heq (by simp)
      next e0 rest heq2 =>
        rw [heq2, stackInv_cons] at hsi
        obtain ⟨h1, h2⟩ := reduceJuxtA_ok rest e0 hsi.1 hsi.2
        rcases hj : reduceJuxtA e0 rest with ⟨e1, r1⟩
        rw [hj] at h1 h2
        simp only [hj] at h
        obtain ⟨h3, h4⟩ := reduceOpsA_inv r1 e1 h1 h2
        rcases ho : reduceOpsA e1 r1 with ⟨e2, r2⟩
        rw [ho] at h3 h4
        simp only [ho] at h
        rcases r2 with _ | ⟨j, r3⟩
        · injection h with h5
          subst h5
          obtain rfl : e2 = e := by simpa using heq
          exact h3
        · exact Option.noConfusion h
      next => exact Option.noConfusion h
  | cons t ts ih =>
      intro stk q h hstk htok e heq
      rw [runParse] at h
      cases hst : step stk t with
      | none =>
          rw [hst] at h
          exact Option.noConfusion h
      | some stk2 =>
          simp only [hst] at h
          exact ih stk2 q h
            (step_inv t stk stk2 hst hstk (htok t (List.mem_cons_self t ts)))
            (fun t2 ht2 => htok t2 (List.mem_cons_of_mem t ht2)) e heq

/-- A successful step never empties the stack. -/
theorem step_ne_nil : ∀ (t : Token) (stk stk2 : List StackItem),
    step stk t = some stk2 → stk2 ≠ [] := by
  intro t stk stk2 h hemp
  subst hemp
  cases t with
  | QUOTED_STRING v => rw [step] at h; split at h <;> simp at h
  | UNQUOTED_STRING v => rw [step] at h; split at h <;> simp at h
  | COLON =>
      rcases stk with _ | ⟨i, l⟩
      · exact Option.noConfusion h
      cases i with
      | uword s =>
          have h2 : some (StackItem.pendingField s :: l) = some ([] : List StackItem) := h
          simp at h2
      | openParen => exact Option.noConfusion h
      | opAnd => exact Option.noConfusion h
      | opOr => exact Option.noConfusion h
      | pendingField k => exact Option.noConfusion h
      | done e => exact Option.noConfusion h
  | LPAREN => rw [step] at h; split at h <;> simp at h
  | AND =>
      rw [step] at h
      split at h
      next e rest heq =>
          rcases hj : reduceJuxtA e rest with ⟨e1, r1⟩
          simp only [hj] at h
          simp at h
      next => simp at h
  | OR =>
      rw [step] at h
      split at h
      next e rest heq =>
          rcases hj : reduceJuxtA e rest with ⟨e1, r1⟩
          simp only [hj] at h
          rcases ha : reduceAndA e1 r1 with ⟨e2, r2⟩
          simp only [ha] at h
          simp at h
      next => simp at h
  | RPAREN =>
      rw [step] at h
      split at h
      next e rest heq =>
          rcases hj : reduceJuxtA e rest with ⟨e1, r1⟩
          simp only [hj] at h
          rcases ho : reduceOpsA e1 r1 with ⟨e2, r2⟩
          simp only [ho] at h
          rcases r2 with _ | ⟨j, r3⟩
          · simp at h
          cases j <;> simp at h
      next => simp at h

/-- From a nonempty stack, a successful parse yields a present
expression. -/
theorem runParse_expr_ne_none : ∀ (ts : List Token) (stk : List StackItem)
    (q : SearchQuery), stk ≠ [] → runParse stk ts = some q →
    q.expression ≠ none := by
  intro ts
  induction ts with
  | nil =>
      intro stk q hne h heq
      rw [runParse, finish] at h
      split at h
      next heq2 =>
        apply hne
        rcases stk with _ | ⟨i, l⟩
        · rfl
        · exfalso
          cases i <;> simp [settle] at heq2
      next e0 rest heq2 =>
        rcases hj : reduceJuxtA e0 rest with ⟨e1, r1⟩
        simp only [hj] at h
        rcases ho : reduceOpsA e1 r1 with ⟨e2, r2⟩
        simp only [ho] at h
        rcases r2 with _ | ⟨j, r3⟩
        · injection h with h5
          subst h5
          simp at heq
        · exact Option.noConfusion h
      next => exact Option.noConfusion h
  | cons t ts ih =>
      intro stk q hne h heq
      rw [runParse] at h
      cases hst : step stk t with
      | none =>
          rw [hst] at h
          exact Option.noConfusion h
      | some stk2 =>
          simp only [hst] at h
          exact ih stk2 q (step_ne_nil t stk stk2 hst) h heq

/-! Decoding lemmas: the two sequential `str.replace` calls act unit-wise
on any well-formed quoted body. -/

theorem replaceEscapedQuote_cons_safe {c : Char} (h : c ≠ '\\')
    (l : List Char) : replaceEscapedQuote (c :: l) = c :: replaceEscapedQuote l := by
  cases l with
  | nil => rfl
  | cons d t => rw [replaceEscapedQuote, if_neg (by simp [h])]

theorem replaceEscapedBackslash_cons_safe {c : Char} (h : c ≠ '\\')
    (l : List Char) :
    replaceEscapedBackslash (c :: l) = c :: replaceEscapedBackslash l := by
  cases l with
  | nil => rfl
  | cons d t => rw [replaceEscapedBackslash, if_neg (by simp [h])]

theorem replaceEscapedQuote_esc_quote (l : List Char) :
    replaceEscapedQuote ('\\' :: '"' :: l) = '"' :: replaceEscapedQuote l := by
  rw [replaceEscapedQuote, if_pos (by decide)]

theorem replaceEscapedQuote_esc_other {c : Char} (hq : c ≠ '"')
    (hb : c ≠ '\\') (l : List Char) :
    replaceEscapedQuote ('\\' :: c :: l) = '\\' :: c :: replaceEscapedQuote l := by
  rw [replaceEscapedQuote, if_neg (by simp [hq]),
    replaceEscapedQuote_cons_safe hb]

theorem replaceEscapedQuote_esc_backslash {l : List Char}
    (h : l = [] ∨ ∃ d t, l = d :: t ∧ d ≠ '"') :
    replaceEscapedQuote ('\\' :: '\\' :: l) =
      '\\' :: '\\' :: replaceEscapedQuote l := by
  rw [replaceEscapedQuote, if_neg (by simp)]
  rcases h with rfl | ⟨d, t, rfl, hd⟩
  · rfl
  · rw [replaceEscapedQuote, if_neg (by simp [hd])]

theorem replaceEscapedBackslash_esc (l : List Char) :
    replaceEscapedBackslash ('\\' :: '\\' :: l) =
      '\\' :: replaceEscapedBackslash l := by
  rw [replaceEscapedBackslash, if_pos (by decide)]

theorem replaceEscapedBackslash_esc_other {c : Char} (hb : c ≠ '\\')
    (l : List Char) :
    replaceEscapedBackslash ('\\' :: c :: l) =
      '\\' :: c :: replaceEscapedBackslash l := by
  rw [replaceEscapedBackslash, if_neg (by simp [hb]),
    replaceEscapedBackslash_cons_safe hb]

theorem unitsRaw_head_ne_quote {us : List QuotedUnit}
    (hok : ∀ u ∈ us, unitOk u = true) :
    unitsRaw us = [] ∨ ∃ d t, unitsRaw us = d :: t ∧ d ≠ '"' := by
  cases us with
  | nil => exact Or.inl rfl
  | cons u us =>
      cases u with
      | lit c =>
          refine Or.inr ⟨c, unitsRaw us, rfl, ?_⟩
          have hu := hok (.lit c) (List.mem_cons_self _ _)
          simp only [unitOk, Bool.not_eq_true', Bool.or_eq_false_iff,
            decide_eq_false_iff_not] at hu
          exact hu.1
      | esc c => exact Or.inr ⟨'\\', _, rfl, by decide⟩

/-- Decoding acts unit-wise on a well-formed quoted body: `\"` and `\\`
are unescaped, every other unit passes through unchanged. -/
theorem decodeQuoted_units : ∀ us : List QuotedUnit,
    (∀ u ∈ us, unitOk u = true) →
    decodeQuoted (unitsRaw us) = unitsDecoded us := by
  intro us
  induction us with
  | nil => intro _; rfl
  | cons u us ih =>
      intro hok
      have hoku := hok u (List.mem_cons_self _ _)
      have hokr : ∀ u2 ∈ us, unitOk u2 = true :=
        fun u2 h2 => hok u2 (List.mem_cons_of_mem _ h2)
      have ihr := ih hokr
      cases u with
      | lit c =>
          simp only [unitOk, Bool.not_eq_true', Bool.or_eq_false_iff,
            decide_eq_false_iff_not] at hoku
          show decodeQuoted (c :: unitsRaw us) = c :: unitsDecoded us
          rw [decodeQuoted, replaceEscapedQuote_cons_safe hoku.2,
            replaceEscapedBackslash_cons_safe hoku.2]
          exact congrArg (c :: ·) ihr
      | esc c =>
          by_cases hq : c = '"'
          · subst hq
            show decodeQuoted ('\\' :: '"' :: unitsRaw us) = '"' :: unitsDecoded us
            rw [decodeQuoted, replaceEscapedQuote_esc_quote,
              replaceEscapedBackslash_cons_safe (by decide)]
            exact congrArg ('"' :: ·) ihr
          · by_cases hb : c = '\\'
            · subst hb
              show decodeQuoted ('\\' :: '\\' :: unitsRaw us) =
                '\\' :: unitsDecoded us
              rw [decodeQuoted,
                replaceEscapedQuote_esc_backslash (unitsRaw_head_ne_quote hokr),
                replaceEscapedBackslash_esc]
              exact congrArg ('\\' :: ·) ihr
            · have hud : unitsDecoded (.esc c :: us) =
                  '\\' :: c :: unitsDecoded us := by
                show unitDecoded (.esc c) ++ unitsDecoded us = _
                rw [unitDecoded, if_neg (by simp [hq, hb])]
                rfl
              rw [hud]
              show decodeQuoted ('\\' :: c :: unitsRaw us) = _
              rw [decodeQuoted, replaceEscapedQuote_esc_other hq hb,
                replaceEscapedBackslash_esc_other hb]
              exact congrArg (fun l => '\\' :: c :: l) ihr

/-! Word-chain lexing lemmas for the precedence and associativity
claims. -/

theorem lexChars_top_space (cs : List Char) :
    lexChars .top (' ' :: cs) = lexChars .top cs := rfl

theorem lexChars_top_word_space {a : String} (ha : wordOk a = true)
    (cs : List Char) :
    lexChars .top (a.data ++ (' ' :: cs)) =
      (lexChars .top (' ' :: cs)).map (.UNQUOTED_STRING a :: ·) := by
  obtain ⟨hne, hall, -, -⟩ := wordOk_props ha
  rw [lexChars_top_run hne hall (Or.inr (Or.inl ⟨_, rfl⟩)), classifyRun_word ha]

theorem lexChars_top_word_end {a : String} (ha : wordOk a = true) :
    lexChars .top a.data = some [.UNQUOTED_STRING a] := by
  obtain ⟨hne, hall, -, -⟩ := wordOk_props ha
  have h := @lexChars_top_run _ [] hne hall (Or.inl rfl)
  rw [List.append_nil] at h
  rw [h, classifyRun_word ha]
  rfl

example : parse_search_query "a AND b" =
    .ok ⟨some (.And (.Term "a") (.Term "b"))⟩ := by decide

example : parse_search_query "color:red AND size:large" =
    .ok ⟨some (.And (.Field "color" "red") (.Field "size" "large"))⟩ := by
  decide

/-! Claim theorems. -/

/-- Claim C1, counterexample: the claim fails as stated.  `parse('""')`
returns the expression `Term ""`, `stringify` emits the empty value bare
(it contains no space), and re-parsing the empty string yields
`SearchQuery{expression: None}`, which is not structurally equal to
`Term ""`. -/
theorem C1_counterexample :
    parse_search_query "\"\"" = .ok ⟨some (.Term "")⟩ ∧
    stringify (.Term "") = "" ∧
    parse_search_query (stringify (.Term "")) = .ok ⟨none⟩ ∧
    parse_search_query (stringify (.Term "")) ≠ .ok ⟨some (.Term "")⟩ := by
  decide

/-- Claim C1, amended: round-trip stability holds for every expression
whose values survive `stringify`'s unescaped emission — each `Term`/`Field`
value either contains a space (U+0020) and no quote or backslash
character, or is a nonempty run of unquoted-run characters (no Python
`\s` whitespace, quote, parenthesis or colon) other than `AND`/`OR`; each
`Field` key is a nonempty ASCII unquoted run fixed by lower-casing (as
every parsed ASCII key is).  Then `parse(stringify(e))` succeeds and
returns exactly `e`. -/
theorem C1_roundtrip_amended (e : Expression) (h : roundtrippable e = true) :
    parse_search_query (stringify e) = .ok ⟨some e⟩ := by
  have h1 := tokenize_stringify h
  have h2 := parseTokens_toks h
  rw [parse_search_query]
  simp only [h1, h2]

theorem C1_roundtrip_amended_witness :
    roundtrippable
        (.And (.Term "red shoes")
          (.Or (.Field "color" "navy blue") (.Term "bo\\ots"))) = true ∧
    parse_search_query
        (stringify
          (.And (.Term "red shoes")
            (.Or (.Field "color" "navy blue") (.Term "bo\\ots")))) =
      .ok ⟨some (.And (.Term "red shoes")
        (.Or (.Field "color" "navy blue") (.Term "bo\\ots")))⟩ :=
  ⟨by decide, C1_roundtrip_amended _ (by decide)⟩

/-- Claim C2: the three malformed inputs are indeed grammar errors — the
token stream matches no derivation, so yacc invokes `p_error` (modelled as
the error result).  The Python code, however, does not raise
`SyntaxError` there: `p_error` only prints, and with no `error`
productions PLY's recovery returns `None` (for `"field:"`) or even a
recovered `SearchQuery` (for `"()"` and `":value"`) instead of raising,
contradicting `parse_search_query`'s docstring. -/
theorem C2_grammar_errors :
    parse_search_query "()" = .error .parseErr ∧
    parse_search_query "field:" = .error .parseErr ∧
    parse_search_query ":value" = .error .parseErr := by
  decide

/-- Claim C3: AND binds tighter than OR, for arbitrary single-word terms:
`a AND b OR c` parses as `Or(And(a,b),c)` and `a OR b AND c` as
`Or(a,And(b,c))`. -/
theorem C3_precedence (a b c : String) (ha : wordOk a = true)
    (hb : wordOk b = true) (hc : wordOk c = true) :
    parse_search_query (a ++ " AND " ++ b ++ " OR " ++ c) =
      .ok ⟨some (.Or (.And (.Term a) (.Term b)) (.Term c))⟩ ∧
    parse_search_query (a ++ " OR " ++ b ++ " AND " ++ c) =
      .ok ⟨some (.Or (.Term a) (.And (.Term b) (.Term c)))⟩ := by
  constructor
  · have hd : (a ++ " AND " ++ b ++ " OR " ++ c).data =
        a.data ++ (' ' :: 'A' :: 'N' :: 'D' :: ' ' ::
          (b.data ++ (' ' :: 'O' :: 'R' :: ' ' :: c.data))) := by
      simp only [String.data_append, List.append_assoc]
      rfl
    have ht : tokenize (a ++ " AND " ++ b ++ " OR " ++ c) =
        some [.UNQUOTED_STRING a, .AND, .UNQUOTED_STRING b, .OR,
          .UNQUOTED_STRING c] := by
      rw [tokenize, hd, lexChars_top_word_space ha, lexChars_top_sepAND,
        lexChars_top_word_space hb, lexChars_top_sepOR,
        lexChars_top_word_end hc]
      rfl
    have hp : parseTokens [.UNQUOTED_STRING a, .AND, .UNQUOTED_STRING b,
        .OR, .UNQUOTED_STRING c] =
        some ⟨some (.Or (.And (.Term a) (.Term b)) (.Term c))⟩ := rfl
    rw [parse_search_query]
    simp only [ht, hp]
  · have hd : (a ++ " OR " ++ b ++ " AND " ++ c).data =
        a.data ++ (' ' :: 'O' :: 'R' :: ' ' ::
          (b.data ++ (' ' :: 'A' :: 'N' :: 'D' :: ' ' :: c.data))) := by
      simp only [String.data_append, List.append_assoc]
      rfl
    have ht : tokenize (a ++ " OR " ++ b ++ " AND " ++ c) =
        some [.UNQUOTED_STRING a, .OR, .UNQUOTED_STRING b, .AND,
          .UNQUOTED_STRING c] := by
      rw [tokenize, hd, lexChars_top_word_space ha, lexChars_top_sepOR,
        lexChars_top_word_space hb, lexChars_top_sepAND,
        lexChars_top_word_end hc]
      rfl
    have hp : parseTokens [.UNQUOTED_STRING a, .OR, .UNQUOTED_STRING b,
        .AND, .UNQUOTED_STRING c] =
        some ⟨some (.Or (.Term a) (.And (.Term b) (.Term c)))⟩ := rfl
    rw [parse_search_query]
    simp only [ht, hp]

theorem C3_precedence_witness :
    wordOk "a" = true ∧
    parse_search_query "a AND b OR c" =
      .ok ⟨some (.Or (.And (.Term "a") (.Term "b")) (.Term "c"))⟩ ∧
    parse_search_query "a OR b AND c" =
      .ok ⟨some (.Or (.Term "a") (.And (.Term "b") (.Term "c")))⟩ := by
  have h := C3_precedence "a" "b" "c" (by decide) (by decide) (by decide)
  have e1 : ("a" ++ " AND " ++ "b" ++ " OR " ++ "c" : String) =
      "a AND b OR c" := by decide
  have e2 : ("a" ++ " OR " ++ "b" ++ " AND " ++ "c" : String) =
      "a OR b AND c" := by decide
  rw [e1, e2] at h
  exact ⟨by decide, h.1, h.2⟩

/-- Claim C4: operators of equal precedence group to the right, for
arbitrary single-word terms: `a AND b AND c` parses as `And(a,And(b,c))`
and `a OR b OR c AND d` as `Or(a,Or(b,And(c,d)))`. -/
theorem C4_right_assoc (a b c d : String) (ha : wordOk a = true)
    (hb : wordOk b = true) (hc : wordOk c = true) (hd0 : wordOk d = true) :
    parse_search_query (a ++ " AND " ++ b ++ " AND " ++ c) =
      .ok ⟨some (.And (.Term a) (.And (.Term b) (.Term c)))⟩ ∧
    parse_search_query (a ++ " OR " ++ b ++ " OR " ++ c ++ " AND " ++ d) =
      .ok ⟨some (.Or (.Term a) (.Or (.Term b) (.And (.Term c) (.Term d))))⟩ := by
  constructor
  · have hd : (a ++ " AND " ++ b ++ " AND " ++ c).data =
        a.data ++ (' ' :: 'A' :: 'N' :: 'D' :: ' ' ::
          (b.data ++ (' ' :: 'A' :: 'N' :: 'D' :: ' ' :: c.data))) := by
      simp only [String.data_append, List.append_assoc]
      rfl
    have ht : tokenize (a ++ " AND " ++ b ++ " AND " ++ c) =
        some [.UNQUOTED_STRING a, .AND, .UNQUOTED_STRING b, .AND,
          .UNQUOTED_STRING c] := by
      rw [tokenize, hd, lexChars_top_word_space ha, lexChars_top_sepAND,
        lexChars_top_word_space hb, lexChars_top_sepAND,
        lexChars_top_word_end hc]
      rfl
    have hp : parseTokens [.UNQUOTED_STRING a, .AND, .UNQUOTED_STRING b,
        .AND, .UNQUOTED_STRING c] =
        some ⟨some (.And (.Term a) (.And (.Term b) (.Term c)))⟩ := rfl
    rw [parse_search_query]
    simp only [ht, hp]
  · have hd : (a ++ " OR " ++ b ++ " OR " ++ c ++ " AND " ++ d).data =
        a.data ++ (' ' :: 'O' :: 'R' :: ' ' ::
          (b.data ++ (' ' :: 'O' :: 'R' :: ' ' ::
            (c.data ++ (' ' :: 'A' :: 'N' :: 'D' :: ' ' :: d.data))))) := by
      simp only [String.data_append, List.append_assoc]
      rfl
    have ht : tokenize (a ++ " OR " ++ b ++ " OR " ++ c ++ " AND " ++ d) =
        some [.UNQUOTED_STRING a, .OR, .UNQUOTED_STRING b, .OR,
          .UNQUOTED_STRING c, .AND, .UNQUOTED_STRING d] := by
      rw [tokenize, hd, lexChars_top_word_space ha, lexChars_top_sepOR,
        lexChars_top_word_space hb, lexChars_top_sepOR,
        lexChars_top_word_space hc, lexChars_top_sepAND,
        lexChars_top_word_end hd0]
      rfl
    have hp : parseTokens [.UNQUOTED_STRING a, .OR, .UNQUOTED_STRING b,
        .OR, .UNQUOTED_STRING c, .AND, .UNQUOTED_STRING d] =
        some ⟨some (.Or (.Term a)
          (.Or (.Term b) (.And (.Term c) (.Term d))))⟩ := rfl
    rw [parse_search_query]
    simp only [ht, hp]

theorem C4_right_assoc_witness :
    wordOk "a" = true ∧
    parse_search_query "a AND b AND c" =
      .ok ⟨some (.And (.Term "a") (.And (.Term "b") (.Term "c")))⟩ ∧
    parse_search_query "a OR b OR c AND d" =
      .ok ⟨some (.Or (.Term "a")
        (.Or (.Term "b") (.And (.Term "c") (.Term "d"))))⟩ := by
  have h := C4_right_assoc "a" "b" "c" "d" (by decide) (by decide)
    (by decide) (by decide)
  have e1 : ("a" ++ " AND " ++ "b" ++ " AND " ++ "c" : String) =
      "a AND b AND c" := by decide
  have e2 : ("a" ++ " OR " ++ "b" ++ " OR " ++ "c" ++ " AND " ++ "d" : String) =
      "a OR b OR c AND d" := by decide
  rw [e1, e2] at h
  exact ⟨by decide, h.1, h.2⟩

/-- Claim C5: implicit conjunction by juxtaposition equals explicit AND,
for arbitrary single-word terms: `a b` and `a AND b` both parse to
`And(a,b)`, so their expressions are structurally equal. -/
theorem C5_implicit_and (a b : String) (ha : wordOk a = true)
    (hb : wordOk b = true) :
    parse_search_query (a ++ " " ++ b) =
      .ok ⟨some (.And (.Term a) (.Term b))⟩ ∧
    parse_search_query (a ++ " AND " ++ b) =
      .ok ⟨some (.And (.Term a) (.Term b))⟩ ∧
    parse_search_query (a ++ " " ++ b) =
      parse_search_query (a ++ " AND " ++ b) := by
  have h1 : parse_search_query (a ++ " " ++ b) =
      .ok ⟨some (.And (.Term a) (.Term b))⟩ := by
    have hd : (a ++ " " ++ b).data = a.data ++ (' ' :: b.data) := by
      simp only [String.data_append, List.append_assoc]
      rfl
    have ht : tokenize (a ++ " " ++ b) =
        some [.UNQUOTED_STRING a, .UNQUOTED_STRING b] := by
      rw [tokenize, hd, lexChars_top_word_space ha, lexChars_top_space,
        lexChars_top_word_end hb]
      rfl
    have hp : parseTokens [.UNQUOTED_STRING a, .UNQUOTED_STRING b] =
        some ⟨some (.And (.Term a) (.Term b))⟩ := rfl
    rw [parse_search_query]
    simp only [ht, hp]
  have h2 : parse_search_query (a ++ " AND " ++ b) =
      .ok ⟨some (.And (.Term a) (.Term b))⟩ := by
    have hd : (a ++ " AND " ++ b).data =
        a.data ++ (' ' :: 'A' :: 'N' :: 'D' :: ' ' :: b.data) := by
      simp only [String.data_append, List.append_assoc]
      rfl
    have ht : tokenize (a ++ " AND " ++ b) =
        some [.UNQUOTED_STRING a, .AND, .UNQUOTED_STRING b] := by
      rw [tokenize, hd, lexChars_top_word_space ha, lexChars_top_sepAND,
        lexChars_top_word_end hb]
      rfl
    have hp : parseTokens [.UNQUOTED_STRING a, .AND, .UNQUOTED_STRING b] =
        some ⟨some (.And (.Term a) (.Term b))⟩ := rfl
    rw [parse_search_query]
    simp only [ht, hp]
  exact ⟨h1, h2, by rw [h1, h2]⟩

theorem C5_implicit_and_witness :
    wordOk "a" = true ∧
    parse_search_query "a b" = parse_search_query "a AND b" ∧
    parse_search_query "a b" = .ok ⟨some (.And (.Term "a") (.Term "b"))⟩ := by
  have h := C5_implicit_and "a" "b" (by decide) (by decide)
  have e1 : ("a" ++ " " ++ "b" : String) = "a b" := by decide
  have e2 : ("a" ++ " AND " ++ "b" : String) = "a AND b" := by decide
  rw [e1, e2] at h
  exact ⟨by decide, h.2.2, h.1⟩

/-- Claim C6: `parse("color:red")` and `parse("COLOR:red")` both yield
`Field{key:"color", value:"red"}`, and in every expression `parse`
returns, every `Field` key is nonempty and equal to its own
lower-casing (values are stored exactly as decoded at construction, per
`p_field_value`). -/
theorem C6_field_keys :
    parse_search_query "color:red" = .ok ⟨some (.Field "color" "red")⟩ ∧
    parse_search_query "COLOR:red" = .ok ⟨some (.Field "color" "red")⟩ ∧
    ∀ (s : String) (q : SearchQuery) (e : Expression),
      parse_search_query s = .ok q → q.expression = some e →
      fieldKeysOk e = true := by
  refine ⟨by decide, by decide, ?_⟩
  intro s q e hok heq
  rw [parse_search_query] at hok
  cases htok : tokenize s with
  | none => rw [htok] at hok; exact Except.noConfusion hok
  | some ts =>
      simp only [htok] at hok
      cases hpt : parseTokens ts with
      | none => simp only [hpt] at hok; exact Except.noConfusion hok
      | some q2 =>
          simp only [hpt] at hok
          injection hok with h2
          subst h2
          exact runParse_fieldKeysOk ts [] q2 hpt (by simp [stackInv])
            (lexChars_tokOk s.data .top ts modeOk_top htok) e heq

theorem C6_field_keys_witness :
    parse_search_query "SIZE:big shoes" =
      .ok ⟨some (.And (.Field "size" "big") (.Term "shoes"))⟩ ∧
    fieldKeysOk (.And (.Field "size" "big") (.Term "shoes")) = true :=
  ⟨by decide,
    C6_field_keys.2.2 "SIZE:big shoes"
      ⟨some (.And (.Field "size" "big") (.Term "shoes"))⟩
      (.And (.Field "size" "big") (.Term "shoes")) (by decide) rfl⟩

/-- Claim C7: decoding a quoted body unescapes exactly backslash-quote
and backslash-backslash and passes every other unit through unchanged;
`parse('"red shoes"')` yields `Term "red shoes"` and
`parse('brand:"Nike\"Air"')` yields `Field{key:"brand",
value:'Nike"Air'}` (the delimiters are stripped). -/
theorem C7_quoted_decoding :
    (∀ us : List QuotedUnit, (∀ u ∈ us, unitOk u = true) →
      decodeQuoted (unitsRaw us) = unitsDecoded us) ∧
    parse_search_query "\"red shoes\"" = .ok ⟨some (.Term "red shoes")⟩ ∧
    parse_search_query "brand:\"Nike\\\"Air\"" =
      .ok ⟨some (.Field "brand" "Nike\"Air")⟩ :=
  ⟨decodeQuoted_units, by decide, by decide⟩

theorem C7_quoted_decoding_witness :
    (∀ u ∈ ([.lit 'a', .esc '"', .esc '\\', .esc 'n', .lit ' ']
        : List QuotedUnit), unitOk u = true) ∧
    decodeQuoted
        (unitsRaw [.lit 'a', .esc '"', .esc '\\', .esc 'n', .lit ' ']) =
      unitsDecoded [.lit 'a', .esc '"', .esc '\\', .esc 'n', .lit ' '] :=
  ⟨by decide, C7_quoted_decoding.1 _ (by decide)⟩

/-- Claim C8: an unquoted run that is exactly `AND` (or `OR`) is
reclassified as the keyword token regardless of the following character,
so `"AND:" ++ v` tokenizes to the operator token followed by a colon, and
for every `v` the parse fails — an operator appears where a field name
was expected, so `AND:value` can never parse as a `Field`. -/
theorem C8_keyword_reclassification : ∀ v : String,
    tokenize ("AND:" ++ v) =
      (tokenize v).map (fun ts => .AND :: .COLON :: ts) ∧
    ∀ q, parse_search_query ("AND:" ++ v) ≠ .ok q := by
  intro v
  have hd : ("AND:" ++ v).data = 'A' :: 'N' :: 'D' :: ':' :: v.data := by
    simp only [String.data_append]
    rfl
  have ht : tokenize ("AND:" ++ v) =
      (tokenize v).map (fun ts => .AND :: .COLON :: ts) := by
    rw [tokenize, hd]
    rfl
  refine ⟨ht, ?_⟩
  intro q hq
  rw [parse_search_query, ht] at hq
  cases htv : tokenize v with
  | none =>
      simp only [htv, Option.map_none'] at hq
      exact Except.noConfusion hq
  | some ts =>
      simp only [htv, Option.map_some'] at hq
      have hpt : parseTokens (Token.AND :: Token.COLON :: ts) = none := rfl
      simp only [hpt] at hq
      exact Except.noConfusion hq

theorem C8_keyword_reclassification_witness :
    tokenize "AND:value" = some [.AND, .COLON, .UNQUOTED_STRING "value"] ∧
    parse_search_query "AND:value" ≠ .ok ⟨some (.Field "and" "value")⟩ := by
  have h := C8_keyword_reclassification "value"
  have e1 : ("AND:" ++ "value" : String) = "AND:value" := by decide
  rw [e1] at h
  exact ⟨by decide, h.2 _⟩

/-- Claim C9: `parse("")` returns `SearchQuery{expression: None}`, and an
empty token stream is the only way to obtain a `None` expression: every
input that tokenizes to at least one token and parses without a grammar
error yields a present expression. -/
theorem C9_none_only_empty :
    parse_search_query "" = .ok ⟨none⟩ ∧
    ∀ (s : String) (ts : List Token) (q : SearchQuery),
      tokenize s = some ts → ts ≠ [] → parse_search_query s = .ok q →
      q.expression ≠ none := by
  refine ⟨by decide, ?_⟩
  intro s ts q htok hne hq
  rw [parse_search_query, htok] at hq
  cases hpt : parseTokens ts with
  | none =>
      simp only [hpt] at hq
      exact Except.noConfusion hq
  | some q2 =>
      simp only [hpt] at hq
      injection hq with h2
      subst h2
      rcases ts with _ | ⟨t, ts2⟩
      · exact absurd rfl hne
      rw [parseTokens, runParse] at hpt
      cases hst : step [] t with
      | none => rw [hst] at hpt; exact Option.noConfusion hpt
      | some stk2 =>
          simp only [hst] at hpt
          exact runParse_expr_ne_none ts2 stk2 q2
            (step_ne_nil t [] stk2 hst) hpt

theorem C9_none_only_empty_witness :
    tokenize "a" = some [.UNQUOTED_STRING "a"] ∧
    parse_search_query "a" = .ok ⟨some (.Term "a")⟩ ∧
    (SearchQuery.mk (some (.Term "a"))).expression ≠ none :=
  ⟨by decide, by decide,
    C9_none_only_empty.2 "a" [.UNQUOTED_STRING "a"] ⟨some (.Term "a")⟩
      (by decide) (by decide) (by decide)⟩

/-- Claim C10: `stringify` decides quoting solely by the presence of a
space: a space-free value is emitted verbatim and unquoted even when it
contains quotes, parentheses, colons, tabs, newlines, or equals a keyword;
a value containing a space is wrapped in double quotes with no character
escaped.  The concrete instances illustrate the quantified equations. -/
theorem C10_stringify_quoting :
    (∀ v : String, stringify (.Term v) =
      if v.data.contains ' ' then "\"" ++ v ++ "\"" else v) ∧
    (∀ k v : String, stringify (.Field k v) =
      k ++ ":" ++ (if v.data.contains ' ' then "\"" ++ v ++ "\"" else v)) ∧
    stringify (.Term "a\"b:(c)") = "a\"b:(c)" ∧
    stringify (.Term "AND") = "AND" ∧
    stringify (.Term "a\tb\nc") = "a\tb\nc" ∧
    stringify (.Field "key" "x\"y") = "key:x\"y" ∧
    stringify (.Term "red shoes") = "\"red shoes\"" ∧
    stringify (.Field "note" "a \" b\\") = "note:\"a \" b\\\"" :=
  ⟨fun _ => rfl, fun _ _ => rfl, by decide, by decide, by decide,
    by decide, by decide, by decide⟩

end SearchInputQuery
